import Mathlib

/-!
Shallow embedding of the fruit-pricing dashboard pipeline
(source: src/assignment.py) and proofs about its behaviour.

The pipeline under verification is:
  load the CSV, parse the date column with format DD/MM/YYYY and derive a
  month column (lines 21-22); filter the rows by four multiselect
  selections combined with a logical AND (lines 53-58); compute summary
  metrics and grouped aggregations with pandas groupby/mean (lines 60-146);
  drop the placeholder (unnamed) columns from the filtered frame
  (line 148); serialize the filtered frame to CSV (line 156).

Modelling conventions:
  numbers that pandas holds as floats are modelled as rationals, with a
  dedicated NaN marker where pandas produces NaN (the mean of an empty
  series); dataframes appear at two levels, a typed row level for the
  filter and aggregation claims and an untyped column/cell level for the
  column-drop and CSV-export claims; pandas boolean-mask indexing
  (df[mask]) returns a new frame, so the in-place drop on the filtered
  frame is modelled as an update of the filtered component of the state
  only.
-/

namespace Fruit

/-- Lexicographic comparison of character lists by Unicode code point,
mirroring how Python compares strings (and hence how pandas sorts the
string group keys produced by groupby with its default sort=True). -/
def charsLe : List Char → List Char → Bool
  | [], _ => true
  | _ :: _, [] => false
  | a :: as, b :: bs =>
    if a.toNat < b.toNat then true
    else if b.toNat < a.toNat then false
    else charsLe as bs

/-- Order on strings used for pandas group keys. -/
def strLe (a b : String) : Bool := charsLe a.toList b.toList

theorem charsLe_total : ∀ a b : List Char, charsLe a b = true ∨ charsLe b a = true := by
  intro a
  induction a with
  | nil => intro b; left; rfl
  | cons x xs ih =>
    intro b
    cases b with
    | nil => right; rfl
    | cons y ys =>
      by_cases hxy : x.toNat < y.toNat
      · left; simp [charsLe, hxy]
      · by_cases hyx : y.toNat < x.toNat
        · right; simp [charsLe, hyx]
        · rcases ih ys with h | h
          · left; simp [charsLe, hxy, hyx, h]
          · right; simp [charsLe, hxy, hyx, h]

theorem charsLe_cons_iff (x y : Char) (xs ys : List Char) :
    charsLe (x :: xs) (y :: ys) = true ↔
      x.toNat < y.toNat ∨ (x.toNat = y.toNat ∧ charsLe xs ys = true) := by
  simp only [charsLe]
  by_cases h1 : x.toNat < y.toNat
  · simp [h1]
  · by_cases h2 : y.toNat < x.toNat
    · have hne : x.toNat ≠ y.toNat := by omega
      simp [h1, h2, hne]
    · have heq : x.toNat = y.toNat := by omega
      simp [h1, h2, heq]

theorem charsLe_trans : ∀ a b c : List Char,
    charsLe a b = true → charsLe b c = true → charsLe a c = true := by
  intro a
  induction a with
  | nil => intro b c _ _; rfl
  | cons x xs ih =>
    intro b c hab hbc
    cases b with
    | nil => simp [charsLe] at hab
    | cons y ys =>
      cases c with
      | nil => simp [charsLe] at hbc
      | cons z zs =>
        rw [charsLe_cons_iff] at hab hbc ⊢
        rcases hab with h1 | ⟨h1, hab'⟩
        · rcases hbc with h2 | ⟨h2, _⟩
          · exact Or.inl (Nat.lt_trans h1 h2)
          · exact Or.inl (h2 ▸ h1)
        · rcases hbc with h2 | ⟨h2, hbc'⟩
          · exact Or.inl (h1 ▸ h2)
          · exact Or.inr ⟨h1.trans h2, ih ys zs hab' hbc'⟩

theorem strLe_total (a b : String) : strLe a b = true ∨ strLe b a = true :=
  charsLe_total a.toList b.toList

theorem strLe_trans {a b c : String} (h1 : strLe a b = true) (h2 : strLe b c = true) :
    strLe a c = true :=
  charsLe_trans a.toList b.toList c.toList h1 h2

/-- Distinct values of a list in order of first occurrence, mirroring
pandas Series.unique (used for the multiselect option/default lists). -/
def uniqueFirstAux [DecidableEq α] (seen : List α) : List α → List α
  | [] => []
  | a :: l => if a ∈ seen then uniqueFirstAux seen l else a :: uniqueFirstAux (a :: seen) l

/-- Distinct values in order of first occurrence. -/
def uniqueFirst [DecidableEq α] (l : List α) : List α := uniqueFirstAux [] l

theorem mem_uniqueFirstAux [DecidableEq α] (seen : List α) (l : List α) (x : α) :
    x ∈ uniqueFirstAux seen l ↔ x ∈ l ∧ x ∉ seen := by
  induction l generalizing seen with
  | nil => simp [uniqueFirstAux]
  | cons a t ih =>
    by_cases ha : a ∈ seen
    · simp only [uniqueFirstAux, if_pos ha, ih, List.mem_cons]
      by_cases hxa : x = a
      · subst hxa; simp [ha]
      · simp [hxa]
    · simp only [uniqueFirstAux, if_neg ha, List.mem_cons, ih]
      by_cases hxa : x = a
      · subst hxa; simp [ha]
      · simp [hxa]

theorem mem_uniqueFirst [DecidableEq α] (l : List α) (x : α) :
    x ∈ uniqueFirst l ↔ x ∈ l := by
  simp [uniqueFirst, mem_uniqueFirstAux]

theorem nodup_uniqueFirstAux [DecidableEq α] (seen : List α) (l : List α) :
    (uniqueFirstAux seen l).Nodup := by
  induction l generalizing seen with
  | nil => simp [uniqueFirstAux]
  | cons a t ih =>
    by_cases ha : a ∈ seen
    · simpa [uniqueFirstAux, if_pos ha] using ih seen
    · simp only [uniqueFirstAux, if_neg ha, List.nodup_cons]
      refine ⟨?_, ih (a :: seen)⟩
      intro hmem
      exact ((mem_uniqueFirstAux _ _ _).mp hmem).2 (List.mem_cons_self a seen)

theorem nodup_uniqueFirst [DecidableEq α] (l : List α) : (uniqueFirst l).Nodup :=
  nodup_uniqueFirstAux [] l

/-- Calendar date produced by parsing the beginDate column. -/
structure Date where
  day : ℕ
  month : ℕ
  year : ℕ
deriving DecidableEq, Repr

/-- Row of the loaded dataset, after the month column has been derived
(src/assignment.py lines 21-22).  Prices are modelled as rationals. -/
structure Row where
  memberStateCode : String
  product : String
  variety_name : String
  price : ℚ
  beginDate : Date
  month : ℕ
deriving DecidableEq, Repr

/-- Split a character list at every occurrence of the given character.
The result always has one more part than there are separators. -/
def splitOnChar (c : Char) : List Char → List (List Char)
  | [] => [[]]
  | x :: xs =>
    match splitOnChar c xs with
    | [] => [[]]
    | y :: ys => if x = c then [] :: y :: ys else (x :: y) :: ys

/-- Filter Selection: the four multiselect values
(src/assignment.py lines 26-49). -/
structure Sel where
  countries : List String
  products : List String
  varieties : List String
  months : List ℕ
deriving Repr

/-- Per-row inclusion test of the Filter Engine: the conjunction of the
four isin membership tests (src/assignment.py lines 53-58). -/
def rowMatches (s : Sel) (r : Row) : Bool :=
  decide (r.memberStateCode ∈ s.countries) &&
  decide (r.product ∈ s.products) &&
  decide (r.variety_name ∈ s.varieties) &&
  decide (r.month ∈ s.months)

/-- Filtered View: filtered_df = df[mask] (src/assignment.py lines 53-58). -/
def filtered_df (df : List Row) (s : Sel) : List Row :=
  df.filter (rowMatches s)

/-- Default Filter Selection: every multiselect defaults to the distinct
observed values of its column (src/assignment.py lines 26-49). -/
def defaultSel (df : List Row) : Sel :=
  { countries := uniqueFirst (df.map Row.memberStateCode)
    products := uniqueFirst (df.map Row.product)
    varieties := uniqueFirst (df.map Row.variety_name)
    months := uniqueFirst (df.map Row.month) }

/-- Result of a pandas float computation: either a number or NaN.
Series.mean() over an empty series yields NaN. -/
inductive PdVal where
  | nan : PdVal
  | num : ℚ → PdVal
deriving DecidableEq, Repr

/-- Test for the NaN marker. -/
def PdVal.isNan : PdVal → Bool
  | .nan => true
  | .num _ => false

/-- Arithmetic mean of a list of rationals (division by zero for the
empty list is never reached where this is used on groups). -/
def meanQ (l : List ℚ) : ℚ := l.sum / l.length

/-- Series.mean semantics: NaN on an empty series, the arithmetic mean
otherwise. -/
def seriesMean (l : List ℚ) : PdVal :=
  if l.isEmpty then .nan else .num (meanQ l)

/-- Rounding to two decimals applied to the displayed average price
(src/assignment.py line 66).  Python round is half-to-even on floats; no
claim depends on tie behaviour, so half-up rounding of rationals is used.
round(NaN, 2) is NaN. -/
def round2 : PdVal → PdVal
  | .nan => .nan
  | .num q => .num ((round (q * 100) : ℤ) / 100)

/-- Total Records metric (src/assignment.py line 64). -/
def total_records (v : List Row) : ℕ := v.length

/-- Average Price metric (src/assignment.py line 66). -/
def average_price_metric (v : List Row) : PdVal :=
  round2 (seriesMean (v.map Row.price))

/-- Unique Varieties metric (src/assignment.py line 68). -/
def unique_varieties (v : List Row) : ℕ :=
  (uniqueFirst (v.map Row.variety_name)).length

/-- Order on strings as a relation, used for pandas groupby key sorting. -/
def strLeRel (a b : String) : Prop := strLe a b = true

instance : DecidableRel strLeRel :=
  fun a b => inferInstanceAs (Decidable (strLe a b = true))

/-- Group keys of groupby(variety_name): the distinct varieties, sorted
(pandas groupby sorts keys by default). -/
def varietyKeys (v : List Row) : List String :=
  (uniqueFirst (v.map Row.variety_name)).insertionSort strLeRel

/-- Prices of the rows of one variety group. -/
def groupPrices (v : List Row) (name : String) : List ℚ :=
  (v.filter (fun r => decide (r.variety_name = name))).map Row.price

/-- Per-variety mean prices in group-key order:
filtered_df.groupby(variety_name)[price].mean()
(src/assignment.py lines 119, 140, 145). -/
def varietyMeans (v : List Row) : List (String × ℚ) :=
  (varietyKeys v).map (fun n => (n, meanQ (groupPrices v n)))

/-- Descending-mean order on (variety, mean) pairs.  Ties compare equal,
so a stable sort keeps them in group-key order, matching nlargest with
its default keep=first. -/
def descMean (a b : String × ℚ) : Prop := b.2 ≤ a.2

/-- Ascending-mean order on (variety, mean) pairs, for nsmallest. -/
def ascMean (a b : String × ℚ) : Prop := a.2 ≤ b.2

instance : DecidableRel descMean :=
  fun a b => inferInstanceAs (Decidable (b.2 ≤ a.2))

instance : DecidableRel ascMean :=
  fun a b => inferInstanceAs (Decidable (a.2 ≤ b.2))

instance : IsTotal (String × ℚ) descMean := ⟨fun a b => le_total b.2 a.2⟩

instance : IsTotal (String × ℚ) ascMean := ⟨fun a b => le_total a.2 b.2⟩

instance : IsTrans (String × ℚ) descMean := ⟨fun _ _ _ h1 h2 => le_trans h2 h1⟩

instance : IsTrans (String × ℚ) ascMean := ⟨fun _ _ _ h1 h2 => le_trans h1 h2⟩

/-- Top 5 most expensive varieties:
groupby(variety_name)[price].mean().nlargest(5)
(src/assignment.py line 140).  nlargest with keep=first is a stable
descending sort truncated to 5 entries. -/
def top_5_expensive (v : List Row) : List (String × ℚ) :=
  ((varietyMeans v).insertionSort descMean).take 5

/-- Top 5 cheapest varieties:
groupby(variety_name)[price].mean().nsmallest(5)
(src/assignment.py line 145). -/
def top_5_cheapest (v : List Row) : List (String × ℚ) :=
  ((varietyMeans v).insertionSort ascMean).take 5

/-- Lexicographic order on (country, product) group keys. -/
def pairKeyLe (a b : String × String) : Prop :=
  (if a.1 = b.1 then strLe a.2 b.2 else strLe a.1 b.1) = true

instance : DecidableRel pairKeyLe :=
  fun a b =>
    inferInstanceAs (Decidable ((if a.1 = b.1 then strLe a.2 b.2 else strLe a.1 b.1) = true))

/-- Group keys of groupby([memberStateCode, product]), sorted. -/
def pairKeys (v : List Row) : List (String × String) :=
  (uniqueFirst (v.map (fun r => (r.memberStateCode, r.product)))).insertionSort pairKeyLe

/-- Prices of the rows of one (country, product) group. -/
def pairGroupPrices (v : List Row) (k : String × String) : List ℚ :=
  (v.filter (fun r => decide ((r.memberStateCode, r.product) = k))).map Row.price

/-- Grouped mean price by (country, product):
filtered_df.groupby([memberStateCode, product])[price].mean()
(src/assignment.py line 72), as an association list in group-key order. -/
def avg_prices (v : List Row) : List ((String × String) × ℚ) :=
  (pairKeys v).map (fun k => (k, meanQ (pairGroupPrices v k)))

/-- Cell of the unstacked (country, product) mean-price table.  A
combination that has no group is absent after unstack (pandas fills it
with NaN, a no-value marker, never 0); both an absent row/column label
and a NaN cell are modelled as none. -/
def avgPricesCell (v : List Row) (c p : String) : Option ℚ :=
  ((avg_prices v).find? (fun e => decide (e.1 = (c, p)))).map Prod.snd

/-- Check whether the pattern occurs at the head of the text. -/
def listBeginsWith : List Char → List Char → Bool
  | [], _ => true
  | _ :: _, [] => false
  | p :: ps, t :: ts => p = t && listBeginsWith ps ts

/-- Substring test on character lists. -/
def containsSub (pat : List Char) : List Char → Bool
  | [] => pat.isEmpty
  | t :: ts => listBeginsWith pat (t :: ts) || containsSub pat ts

/-- Case-insensitive test for the placeholder column pattern:
df.columns.str.contains(unnamed, case=False) (src/assignment.py line 148). -/
def containsUnnamed (col : List Char) : Bool :=
  containsSub "unnamed".toList (col.map Char.toLower)

/-- Untyped dataframe: column names and rows of cells, each row aligned
positionally with the column list. -/
structure Table where
  cols : List (List Char)
  cells : List (List (List Char))
deriving DecidableEq, Repr

/-- Boolean-mask row indexing df[mask]: pandas returns a new frame with
the same columns and the matching rows; the original frame is not
aliased. -/
def tableFilter (t : Table) (pred : List (List Char) → Bool) : Table :=
  { cols := t.cols, cells := t.cells.filter pred }

/-- Select the elements of a list at the positions where the boolean
mask holds (pandas positional indexing of an Index by a boolean array). -/
def pickMask : List Bool → List α → List α
  | [], _ => []
  | _, [] => []
  | m :: ms, x :: xs => if m then x :: pickMask ms xs else pickMask ms xs

/-- Drop the cells of one row whose column label is in the drop list. -/
def dropCells (cols toDrop : List (List Char)) (r : List (List Char)) : List (List Char) :=
  ((cols.zip r).filter (fun e => decide (e.1 ∉ toDrop))).map Prod.snd

/-- The placeholder-column drop at src/assignment.py line 148:
filtered_df.drop(filtered_df.columns[df.columns.str.contains(unnamed,
case=False)], axis=1).  The boolean mask is computed over the first
argument's column names and applied positionally to the table's own
columns; the selected labels are then dropped. -/
def tableDrop (dfCols : List (List Char)) (t : Table) : Table :=
  let toDrop := pickMask (dfCols.map containsUnnamed) t.cols
  { cols := t.cols.filter (fun c => decide (c ∉ toDrop))
    cells := t.cells.map (dropCells t.cols toDrop) }

/-- Join parts with a separator character (one CSV record). -/
def intercalateChar (c : Char) : List (List Char) → List Char
  | [] => []
  | [x] => x
  | x :: y :: xs => x ++ c :: intercalateChar c (y :: xs)

/-- Serialize records to CSV text: each record is its comma-joined
fields followed by a newline, as pandas to_csv writes them
(src/assignment.py line 156; quoting is not exercised by fields free of
separators, the case covered here). -/
def encodeCsv (recs : List (List (List Char))) : List Char :=
  (recs.map (fun r => intercalateChar ',' r ++ ['\n'])).flatten

/-- Parse CSV text back to records: split into lines, skip blank lines
(read_csv skip_blank_lines, which also absorbs the trailing newline),
split each line at commas. -/
def decodeCsv (s : List Char) : List (List (List Char)) :=
  ((splitOnChar '\n' s).filter (fun l => !l.isEmpty)).map (splitOnChar ',')

/-- Exporter: the CSV payload of the download button, a header record of
column names followed by one record per row (src/assignment.py line 156). -/
def exported_csv (t : Table) : List Char :=
  encodeCsv (t.cols :: t.cells)

/-- Data records of re-parsed CSV text: the first record is the header,
the rest are the rows. -/
def reparsedRows (s : List Char) : List (List (List Char)) :=
  (decodeCsv s).tail

/-- A CSV field that needs no quoting: non-empty, no separator, no
newline. -/
def goodField (f : List Char) : Prop := f ≠ [] ∧ ',' ∉ f ∧ '\n' ∉ f

/-- A CSV record whose round trip is exact: at least one field, all
fields quote-free. -/
def goodRecord (r : List (List Char)) : Prop := r ≠ [] ∧ ∀ f ∈ r, goodField f

instance (f : List Char) : Decidable (goodField f) := by
  unfold goodField; infer_instance

instance (r : List (List Char)) : Decidable (goodRecord r) := by
  unfold goodRecord; infer_instance

/-- State of the script around the export section: the loaded frame df
and the filtered frame filtered_df. -/
structure AppState where
  df : Table
  fdf : Table
deriving DecidableEq, Repr

/-- The filtering statement (src/assignment.py lines 53-58): binds
filtered_df to a fresh frame; df is untouched. -/
def filterStep (pred : List (List Char) → Bool) (st : AppState) : AppState :=
  { df := st.df, fdf := tableFilter st.df pred }

/-- The in-place placeholder drop (src/assignment.py line 148): mutates
filtered_df, which boolean-mask indexing created as a copy, so only the
fdf component changes. -/
def dropStep (st : AppState) : AppState :=
  { df := st.df, fdf := tableDrop st.df.cols st.fdf }

theorem splitOnChar_ne_nil (c : Char) (l : List Char) : splitOnChar c l ≠ [] := by
  induction l with
  | nil => simp [splitOnChar]
  | cons x xs ih =>
    simp only [splitOnChar]
    cases h : splitOnChar c xs with
    | nil => simp
    | cons y ys =>
      by_cases hx : x = c
      · simp [hx]
      · simp [hx]

theorem splitOnChar_cons_self (c : Char) (t : List Char) :
    splitOnChar c (c :: t) = [] :: splitOnChar c t := by
  simp only [splitOnChar]
  cases h : splitOnChar c t with
  | nil => exact absurd h (splitOnChar_ne_nil c t)
  | cons y ys => simp

theorem splitOnChar_of_not_mem (c : Char) (l : List Char) (h : c ∉ l) :
    splitOnChar c l = [l] := by
  induction l with
  | nil => rfl
  | cons x xs ih =>
    have hx : x ≠ c := fun e => h (e ▸ List.mem_cons_self x xs)
    have hxs : c ∉ xs := fun m => h (List.mem_cons_of_mem _ m)
    simp only [splitOnChar, ih hxs]
    simp [hx]

theorem splitOnChar_append (c : Char) (l t : List Char) (h : c ∉ l) :
    splitOnChar c (l ++ c :: t) = l :: splitOnChar c t := by
  induction l with
  | nil => simpa using splitOnChar_cons_self c t
  | cons x xs ih =>
    have hx : x ≠ c := fun e => h (e ▸ List.mem_cons_self x xs)
    have hxs : c ∉ xs := fun m => h (List.mem_cons_of_mem _ m)
    simp only [List.cons_append, splitOnChar]
    show (match splitOnChar c (xs ++ c :: t) with
      | [] => [[]]
      | y :: ys => if x = c then [] :: y :: ys else (x :: y) :: ys) =
      (x :: xs) :: splitOnChar c t
    rw [ih hxs]
    simp [hx]

theorem intercalateChar_ne_nil (c : Char) (r : List (List Char)) (h : r ≠ [])
    (hf : ∀ f ∈ r, f ≠ []) : intercalateChar c r ≠ [] := by
  match r with
  | [] => exact absurd rfl h
  | [x] => exact hf x (List.mem_singleton_self x)
  | x :: y :: xs =>
    simp only [intercalateChar]
    intro hcontra
    rcases List.append_eq_nil.mp hcontra with ⟨_, h2⟩
    simp at h2

theorem not_mem_intercalateChar (c d : Char) (r : List (List Char)) (hcd : d ≠ c)
    (hf : ∀ f ∈ r, d ∉ f) : d ∉ intercalateChar c r := by
  match r with
  | [] => simp [intercalateChar]
  | [x] => simpa [intercalateChar] using hf x (List.mem_singleton_self x)
  | x :: y :: xs =>
    simp only [intercalateChar, List.mem_append, List.mem_cons]
    push_neg
    refine ⟨hf x (List.mem_cons_self _ _), hcd, ?_⟩
    exact not_mem_intercalateChar c d (y :: xs) hcd
      (fun f hm => hf f (List.mem_cons_of_mem _ hm))

theorem splitOnChar_intercalateChar (r : List (List Char)) (h : r ≠ [])
    (hf : ∀ f ∈ r, ',' ∉ f) :
    splitOnChar ',' (intercalateChar ',' r) = r := by
  match r with
  | [] => exact absurd rfl h
  | [x] =>
    exact splitOnChar_of_not_mem ',' x (hf x (List.mem_singleton_self x))
  | x :: y :: xs =>
    simp only [intercalateChar]
    rw [splitOnChar_append ',' x _ (hf x (List.mem_cons_self _ _))]
    rw [splitOnChar_intercalateChar (y :: xs) (by simp)
      (fun f hm => hf f (List.mem_cons_of_mem _ hm))]

theorem decodeCsv_encodeCsv (recs : List (List (List Char)))
    (h : ∀ r ∈ recs, goodRecord r) : decodeCsv (encodeCsv recs) = recs := by
  induction recs with
  | nil => rfl
  | cons r rs ih =>
    obtain ⟨hr, hfields⟩ := h r (List.mem_cons_self r rs)
    have hfne : ∀ f ∈ r, f ≠ [] := fun f hm => (hfields f hm).1
    have hfc : ∀ f ∈ r, ',' ∉ f := fun f hm => (hfields f hm).2.1
    have hfn : ∀ f ∈ r, '\n' ∉ f := fun f hm => (hfields f hm).2.2
    have hline : intercalateChar ',' r ≠ [] := intercalateChar_ne_nil ',' r hr hfne
    have hnonl : '\n' ∉ intercalateChar ',' r :=
      not_mem_intercalateChar ',' '\n' r (by decide) hfn
    have hstep : encodeCsv (r :: rs) =
        intercalateChar ',' r ++ '\n' :: encodeCsv rs := by
      simp [encodeCsv]
    simp only [decodeCsv, hstep, splitOnChar_append '\n' _ _ hnonl]
    have hkeep : (!(intercalateChar ',' r).isEmpty) = true := by
      cases hcase : intercalateChar ',' r with
      | nil => exact absurd hcase hline
      | cons a b => simp
    simp only [List.filter_cons, hkeep, if_pos, List.map_cons]
    rw [splitOnChar_intercalateChar r hr hfc]
    have := ih (fun q hq => h q (List.mem_cons_of_mem _ hq))
    simp only [decodeCsv] at this
    rw [this]

theorem pickMask_map_self (f : List Char → Bool) (l : List (List Char)) :
    pickMask (l.map f) l = l.filter f := by
  induction l with
  | nil => rfl
  | cons x xs ih =>
    by_cases hx : f x
    · simp [pickMask, List.filter_cons, hx, ih]
    · simp [pickMask, List.filter_cons, hx, ih]

/-- C1: a row of the dataset is in the filtered view exactly when its
country, product, variety and month each belong to the corresponding
selection (the four isin tests combined with a logical AND), and the
filtered view is a subsequence of the dataset. -/
theorem c1_filtered_view_membership (df : List Row) (s : Sel) :
    (∀ r : Row, r ∈ filtered_df df s ↔
      r ∈ df ∧ r.memberStateCode ∈ s.countries ∧ r.product ∈ s.products ∧
        r.variety_name ∈ s.varieties ∧ r.month ∈ s.months) ∧
    List.Sublist (filtered_df df s) df := by
  constructor
  · intro r
    simp [filtered_df, List.mem_filter, rowMatches, and_assoc]
  · exact List.filter_sublist df

/-- C2: with all four selections at their defaults (the distinct observed
values of each attribute) the filtered view is the whole dataset. -/
theorem c2_default_selection_is_identity (df : List Row) :
    filtered_df df (defaultSel df) = df := by
  apply List.filter_eq_self.mpr
  intro r hr
  simp only [rowMatches, defaultSel, Bool.and_eq_true, decide_eq_true_eq]
  exact ⟨⟨⟨(mem_uniqueFirst _ _).mpr (List.mem_map_of_mem Row.memberStateCode hr),
    (mem_uniqueFirst _ _).mpr (List.mem_map_of_mem Row.product hr)⟩,
    (mem_uniqueFirst _ _).mpr (List.mem_map_of_mem Row.variety_name hr)⟩,
    (mem_uniqueFirst _ _).mpr (List.mem_map_of_mem Row.month hr)⟩

/-- C7: if any of the four selection sets is empty, the filtered view is
empty. -/
theorem c7_empty_selection_empty_view (df : List Row) (s : Sel)
    (h : s.countries = [] ∨ s.products = [] ∨ s.varieties = [] ∨ s.months = []) :
    filtered_df df s = [] := by
  apply List.filter_eq_nil_iff.mpr
  intro r _
  rcases h with h | h | h | h <;> simp [rowMatches, h]

/-- C9: after load, neither the filter statement nor the in-place
placeholder drop changes the dataset frame df: the drop acts on
filtered_df, which boolean-mask indexing produced as a copy, and the
aggregations only read.  Running the two state-changing steps leaves the
df component untouched and rebinds only the fdf component. -/
theorem c9_dataset_not_mutated (df0 : Table) (pred : List (List Char) → Bool) :
    (filterStep pred { df := df0, fdf := { cols := [], cells := [] } }).df = df0 ∧
    (dropStep (filterStep pred { df := df0, fdf := { cols := [], cells := [] } })).df = df0 ∧
    (dropStep (filterStep pred { df := df0, fdf := { cols := [], cells := [] } })).fdf =
      tableDrop df0.cols (tableFilter df0 pred) :=
  ⟨rfl, rfl, rfl⟩

/-- C10: boolean-mask row filtering keeps the column list unchanged, so
the placeholder mask computed over the dataset's columns and applied
positionally to the filtered view's columns drops exactly the columns
whose lowercased name has the substring unnamed, and no others. -/
theorem c10_drop_exactly_unnamed_columns (df : Table) (pred : List (List Char) → Bool) :
    (tableFilter df pred).cols = df.cols ∧
    (tableDrop df.cols (tableFilter df pred)).cols =
      df.cols.filter (fun c => !containsUnnamed c) := by
  refine ⟨rfl, ?_⟩
  show df.cols.filter
      (fun c => decide (c ∉ pickMask (df.cols.map containsUnnamed) df.cols)) =
    df.cols.filter (fun c => !containsUnnamed c)
  rw [pickMask_map_self]
  apply List.filter_congr
  intro c hc
  simp [List.mem_filter, hc]

/-- Sample row: FR Apple Gala at 1.20 on 05/01/2024 (spec scenario). -/
def rowGala1 : Row :=
  { memberStateCode := "FR", product := "Apple", variety_name := "Gala"
    price := 6/5, beginDate := ⟨5, 1, 2024⟩, month := 1 }

/-- Sample row: FR Apple Gala at 1.40 on 15/01/2024. -/
def rowGala2 : Row :=
  { memberStateCode := "FR", product := "Apple", variety_name := "Gala"
    price := 7/5, beginDate := ⟨15, 1, 2024⟩, month := 1 }

/-- Sample row: NL Pear Conference at 0.90 on 10/01/2024. -/
def rowConf : Row :=
  { memberStateCode := "NL", product := "Pear", variety_name := "Conference"
    price := 9/10, beginDate := ⟨10, 1, 2024⟩, month := 1 }

/-- Sample dataset of the spec scenario. -/
def sampleDf : List Row := [rowGala1, rowGala2, rowConf]

/-- Selection with no country chosen. -/
def emptyCountriesSel : Sel :=
  { countries := [], products := ["Apple", "Pear"]
    varieties := ["Gala", "Conference"], months := [1] }

/-- Witness for C7 at the sample dataset with an empty country selection. -/
theorem c7_witness :
    (emptyCountriesSel.countries = [] ∨ emptyCountriesSel.products = [] ∨
      emptyCountriesSel.varieties = [] ∨ emptyCountriesSel.months = []) ∧
    filtered_df sampleDf emptyCountriesSel = [] :=
  ⟨Or.inl rfl, c7_empty_selection_empty_view sampleDf emptyCountriesSel (Or.inl rfl)⟩

theorem export_roundtrip_table (t : Table) (hhead : goodRecord t.cols)
    (hrows : ∀ r ∈ t.cells, goodRecord r) :
    decodeCsv (exported_csv t) = t.cols :: t.cells := by
  apply decodeCsv_encodeCsv
  intro r hm
  rcases List.mem_cons.mp hm with rfl | hm2
  · exact hhead
  · exact hrows r hm2

/-- C6: the exported CSV of the filtered view (placeholder columns
dropped), re-parsed with header-plus-records framing, reproduces the
dropped view's rows exactly; the drop preserves the row count, and an
empty view exports a header-only file.  The hypotheses restrict fields
to the quote-free CSV fragment the data lives in (non-empty, no comma,
no newline). -/
theorem c6_export_roundtrip (df : Table) (pred : List (List Char) → Bool)
    (hhead : goodRecord (tableDrop df.cols (tableFilter df pred)).cols)
    (hrows : ∀ r ∈ (tableDrop df.cols (tableFilter df pred)).cells, goodRecord r) :
    reparsedRows (exported_csv (tableDrop df.cols (tableFilter df pred))) =
      (tableDrop df.cols (tableFilter df pred)).cells ∧
    (tableDrop df.cols (tableFilter df pred)).cells.length =
      (tableFilter df pred).cells.length ∧
    ((tableFilter df pred).cells = [] →
      decodeCsv (exported_csv (tableDrop df.cols (tableFilter df pred))) =
        [(tableDrop df.cols (tableFilter df pred)).cols]) := by
  have hrt := export_roundtrip_table _ hhead hrows
  refine ⟨?_, ?_, ?_⟩
  · simp [reparsedRows, hrt]
  · simp [tableDrop, tableFilter]
  · intro hemp
    have hstep : (tableDrop df.cols (tableFilter df pred)).cells =
        ((tableFilter df pred).cells).map (dropCells (tableFilter df pred).cols
          (pickMask (df.cols.map containsUnnamed) (tableFilter df pred).cols)) := rfl
    have hcells : (tableDrop df.cols (tableFilter df pred)).cells = [] := by
      rw [hstep, hemp]; rfl
    rw [hrt, hcells]

/-- Concrete table with a pandas index placeholder column. -/
def csvSampleTable : Table :=
  { cols := ["Unnamed: 0".toList, "memberStateCode".toList, "product".toList]
    cells := [["0".toList, "FR".toList, "Apple".toList],
              ["1".toList, "NL".toList, "Pear".toList]] }

/-- Concrete table with the same schema and no rows. -/
def csvEmptyTable : Table :=
  { cols := ["Unnamed: 0".toList, "memberStateCode".toList, "product".toList]
    cells := [] }

/-- Witness for C6 at a concrete two-row table and a concrete empty
table, both run through the placeholder drop and the export. -/
theorem c6_witness :
    (reparsedRows (exported_csv (tableDrop csvSampleTable.cols
        (tableFilter csvSampleTable (fun _ => true)))) =
      (tableDrop csvSampleTable.cols (tableFilter csvSampleTable (fun _ => true))).cells ∧
    (tableDrop csvSampleTable.cols (tableFilter csvSampleTable (fun _ => true))).cells.length =
      (tableFilter csvSampleTable (fun _ => true)).cells.length ∧
    ((tableFilter csvSampleTable (fun _ => true)).cells = [] →
      decodeCsv (exported_csv (tableDrop csvSampleTable.cols
          (tableFilter csvSampleTable (fun _ => true)))) =
        [(tableDrop csvSampleTable.cols (tableFilter csvSampleTable (fun _ => true))).cols])) ∧
    ((tableFilter csvEmptyTable (fun _ => true)).cells = [] →
      decodeCsv (exported_csv (tableDrop csvEmptyTable.cols
          (tableFilter csvEmptyTable (fun _ => true)))) =
        [(tableDrop csvEmptyTable.cols (tableFilter csvEmptyTable (fun _ => true))).cols]) := by
  constructor
  · exact c6_export_roundtrip csvSampleTable (fun _ => true) (by decide) (by decide)
  · exact (c6_export_roundtrip csvEmptyTable (fun _ => true) (by decide) (by decide)).2.2

/-- C3 counterexample: on the sample dataset with an empty country
selection the filtered view is empty, and the Average Price metric
computes to the NaN marker, not to an explicit empty result: the code
displays round(mean(), 2) of an empty series, which is NaN, so the claim
that aggregations never yield NaN is false. -/
theorem c3_counterexample :
    filtered_df sampleDf emptyCountriesSel = [] ∧
    average_price_metric (filtered_df sampleDf emptyCountriesSel) = PdVal.nan ∧
    (average_price_metric (filtered_df sampleDf emptyCountriesSel)).isNan = true := by
  have h : filtered_df sampleDf emptyCountriesSel = [] := rfl
  exact ⟨h, by rw [h]; rfl, by rw [h]; rfl⟩

/-- C3 as amended: over an empty filtered view the row count and the
distinct-variety count are 0, the groupby aggregations are empty tables,
and the Average Price metric is NaN (the pandas missing-value outcome of
mean over zero rows), rather than an explicit empty marker; no
aggregation raises. -/
theorem c3_empty_view_aggregations (df : List Row) (s : Sel)
    (h : filtered_df df s = []) :
    total_records (filtered_df df s) = 0 ∧
    average_price_metric (filtered_df df s) = PdVal.nan ∧
    unique_varieties (filtered_df df s) = 0 ∧
    varietyMeans (filtered_df df s) = [] ∧
    top_5_expensive (filtered_df df s) = [] ∧
    top_5_cheapest (filtered_df df s) = [] ∧
    avg_prices (filtered_df df s) = [] := by
  rw [h]
  exact ⟨rfl, rfl, rfl, rfl, rfl, rfl, rfl⟩

/-- Witness for the amended C3 at the sample dataset with an empty
country selection. -/
theorem c3_witness :
    filtered_df sampleDf emptyCountriesSel = [] ∧
    total_records (filtered_df sampleDf emptyCountriesSel) = 0 ∧
    average_price_metric (filtered_df sampleDf emptyCountriesSel) = PdVal.nan := by
  have h : filtered_df sampleDf emptyCountriesSel = [] := rfl
  have happ := c3_empty_view_aggregations sampleDf emptyCountriesSel h
  exact ⟨h, happ.1, happ.2.1⟩

theorem find?_map_key [DecidableEq α] (f : α → β) (k : α) :
    ∀ ks : List α, (ks.map (fun x => (x, f x))).find? (fun e => decide (e.1 = k)) =
      if k ∈ ks then some (k, f k) else none := by
  intro ks
  induction ks with
  | nil => simp
  | cons a t ih =>
    by_cases ha : a = k
    · subst ha
      simp [List.find?_cons]
    · rw [List.map_cons, List.find?_cons]
      have hpred : (decide ((a, f a).1 = k)) = false := by simp [ha]
      rw [hpred, ih]
      have hka : ¬ k = a := fun h => ha h.symm
      simp [List.mem_cons, hka]

/-- The group of rows that direct iteration over the filtered view
collects for a (country, product) cell. -/
def directGroup (v : List Row) (c p : String) : List Row :=
  v.filter (fun r => decide (r.memberStateCode = c ∧ r.product = p))

theorem pairGroupPrices_eq_directGroup (v : List Row) (c p : String) :
    pairGroupPrices v (c, p) = (directGroup v c p).map Row.price := by
  unfold pairGroupPrices directGroup
  congr 1
  apply List.filter_congr
  intro r _
  simp [Prod.ext_iff]

theorem avgPricesCell_characterization (v : List Row) (c p : String) :
    avgPricesCell v c p =
      if (c, p) ∈ v.map (fun r => (r.memberStateCode, r.product))
      then some (meanQ (pairGroupPrices v (c, p))) else none := by
  unfold avgPricesCell avg_prices
  rw [find?_map_key (fun k => meanQ (pairGroupPrices v k)) (c, p) (pairKeys v)]
  have hmem : ((c, p) ∈ pairKeys v) ↔
      ((c, p) ∈ v.map (fun r => (r.memberStateCode, r.product))) := by
    unfold pairKeys
    rw [(List.perm_insertionSort pairKeyLe _).mem_iff]
    exact mem_uniqueFirst _ _
  by_cases h : (c, p) ∈ v.map (fun r => (r.memberStateCode, r.product))
  · rw [if_pos (hmem.mpr h), if_pos h]
    rfl
  · rw [if_neg (fun hc => h (hmem.mp hc)), if_neg h]
    rfl

/-- C4: a populated cell of the (country, product) mean-price table is
exactly the arithmetic mean, computed by direct iteration, of the
filtered rows with that country and product; a combination with no
matching rows has no value in the table (pandas leaves NaN/absent after
unstack), never 0. -/
theorem c4_grouped_mean_cells (df : List Row) (s : Sel) (c p : String) :
    (directGroup (filtered_df df s) c p ≠ [] →
      avgPricesCell (filtered_df df s) c p =
        some (((directGroup (filtered_df df s) c p).map Row.price).sum /
          ((directGroup (filtered_df df s) c p).length : ℚ))) ∧
    (directGroup (filtered_df df s) c p = [] →
      avgPricesCell (filtered_df df s) c p = none) := by
  have hkey : ((c, p) ∈ (filtered_df df s).map (fun r => (r.memberStateCode, r.product))) ↔
      directGroup (filtered_df df s) c p ≠ [] := by
    rw [List.mem_map]
    constructor
    · rintro ⟨r, hr, hpair⟩
      have : r ∈ directGroup (filtered_df df s) c p := by
        rw [directGroup, List.mem_filter]
        refine ⟨hr, ?_⟩
        rw [Prod.mk.injEq] at hpair
        simp [hpair.1, hpair.2]
      exact fun hnil => by simp [hnil] at this
    · intro hne
      obtain ⟨r, hr⟩ := List.exists_mem_of_ne_nil _ hne
      rw [directGroup, List.mem_filter] at hr
      obtain ⟨hrv, hmatch⟩ := hr
      simp only [decide_eq_true_eq] at hmatch
      exact ⟨r, hrv, by simp [hmatch.1, hmatch.2]⟩
  constructor
  · intro hne
    rw [avgPricesCell_characterization, if_pos (hkey.mpr hne),
      pairGroupPrices_eq_directGroup]
    rw [meanQ]
    simp
  · intro hnil
    rw [avgPricesCell_characterization, if_neg]
    rw [hkey]
    simp [hnil]

/-- Selection that explicitly lists every observed value of the sample
dataset. -/
def fullSampleSel : Sel :=
  { countries := ["FR", "NL"], products := ["Apple", "Pear"]
    varieties := ["Gala", "Conference"], months := [1] }

/-- Witness for C4 at the sample dataset: the (FR, Apple) cell is the
direct-iteration mean of its two rows, and the (NL, Apple) cell, which
has no rows, is empty. -/
theorem c4_witness :
    (directGroup (filtered_df sampleDf fullSampleSel) "FR" "Apple" ≠ [] ∧
      avgPricesCell (filtered_df sampleDf fullSampleSel) "FR" "Apple" =
        some (((directGroup (filtered_df sampleDf fullSampleSel) "FR" "Apple").map
            Row.price).sum /
          ((directGroup (filtered_df sampleDf fullSampleSel) "FR" "Apple").length : ℚ))) ∧
    (directGroup (filtered_df sampleDf fullSampleSel) "NL" "Apple" = [] ∧
      avgPricesCell (filtered_df sampleDf fullSampleSel) "NL" "Apple" = none) := by
  have hne : directGroup (filtered_df sampleDf fullSampleSel) "FR" "Apple" ≠ [] := by
    intro h
    exact absurd h (by decide)
  have hnil : directGroup (filtered_df sampleDf fullSampleSel) "NL" "Apple" = [] := by
    decide
  exact ⟨⟨hne, (c4_grouped_mean_cells sampleDf fullSampleSel "FR" "Apple").1 hne⟩,
    ⟨hnil, (c4_grouped_mean_cells sampleDf fullSampleSel "NL" "Apple").2 hnil⟩⟩

theorem countP_lt_length_of_mem_not {α : Type} {t : List α} {x : α} {p : α → Bool}
    (hx : x ∈ t) (hpx : p x = false) : t.countP p < t.length := by
  obtain ⟨s1, s2, rfl⟩ := List.append_of_mem hx
  rw [List.countP_append, List.countP_cons, hpx]
  have h1 : s1.countP p ≤ s1.length := List.countP_le_length p
  have h2 : s2.countP p ≤ s2.length := List.countP_le_length p
  simp only [List.length_append, List.length_cons, if_neg Bool.false_ne_true]
  omega

theorem countP_or_le {α : Type} (p q : α → Bool) (l : List α) :
    l.countP (fun a => p a || q a) ≤ l.countP p + l.countP q := by
  induction l with
  | nil => simp
  | cons a t ih =>
    simp only [List.countP_cons]
    cases hp : p a <;> cases hq : q a <;> simp [hp, hq] <;> omega

theorem countP_eq_le_one_of_nodup {α : Type} [DecidableEq α] {L : List α}
    (h : L.Nodup) (x : α) : L.countP (fun y => decide (y = x)) ≤ 1 := by
  induction L with
  | nil => simp
  | cons a t ih =>
    rw [List.nodup_cons] at h
    rw [List.countP_cons]
    by_cases ha : a = x
    · subst ha
      have hz : t.countP (fun y => decide (y = a)) = 0 := by
        apply List.countP_eq_zero.mpr
        intro y hy
        simp only [decide_eq_true_eq]
        intro heq
        exact h.1 (heq ▸ hy)
      simp [hz]
    · simp only [decide_eq_true_eq, ha, if_false]
      simpa using ih h.2

theorem countP_not_rel_lt_of_mem_take {α : Type} (r : α → α → Prop) [DecidableRel r]
    [IsTotal α r] [IsTrans α r] (l : List α) (n : ℕ) (x : α)
    (hx : x ∈ (l.insertionSort r).take n) :
    l.countP (fun y => !(decide (r x y))) < n := by
  have hperm : List.Perm (l.insertionSort r) l := List.perm_insertionSort r l
  have hcount : l.countP (fun y => !(decide (r x y))) =
      (l.insertionSort r).countP (fun y => !(decide (r x y))) :=
    (hperm.countP_eq _).symm
  rw [hcount, ← List.take_append_drop n (l.insertionSort r), List.countP_append]
  have hdrop : ((l.insertionSort r).drop n).countP (fun y => !(decide (r x y))) = 0 := by
    apply List.countP_eq_zero.mpr
    intro y hy
    have hr : r x y :=
      (List.sorted_insertionSort r l).rel_of_mem_take_of_mem_drop hx hy
    simp [hr]
  have hpx : (fun y => !(decide (r x y))) x = false := by
    have : r x x := (IsTotal.total (r := r) x x).elim id id
    simp [this]
  have htake : ((l.insertionSort r).take n).countP (fun y => !(decide (r x y))) <
      ((l.insertionSort r).take n).length :=
    countP_lt_length_of_mem_not hx hpx
  have hlen : ((l.insertionSort r).take n).length ≤ n := by
    rw [List.length_take]
    exact min_le_left _ _
  omega

theorem varietyMeans_nodup (v : List Row) : (varietyMeans v).Nodup := by
  unfold varietyMeans varietyKeys
  apply List.Nodup.map
  · intro a b hab
    exact congrArg Prod.fst hab
  · exact ((List.perm_insertionSort strLeRel _).nodup_iff).mpr (nodup_uniqueFirst _)

theorem top5_not_disjoint_aux {L : List (String × ℚ)} (hnd : L.Nodup)
    (hdist : L.Pairwise (fun a b => a.2 ≠ b.2)) (hlen : 10 ≤ L.length)
    {x : String × ℚ} (hxtop : x ∈ (L.insertionSort descMean).take 5)
    (hxbot : x ∈ (L.insertionSort ascMean).take 5) : False := by
  have h1 : L.countP (fun y => !(decide (descMean x y))) < 5 :=
    countP_not_rel_lt_of_mem_take descMean L 5 x hxtop
  have h2 : L.countP (fun y => !(decide (ascMean x y))) < 5 :=
    countP_not_rel_lt_of_mem_take ascMean L 5 x hxbot
  have hxL : x ∈ L :=
    (List.perm_insertionSort descMean L).mem_iff.mp (List.mem_of_mem_take hxtop)
  have hdist2 : ∀ y ∈ L, y ≠ x → y.2 ≠ x.2 := by
    have hsym : Symmetric (fun a b : String × ℚ => a.2 ≠ b.2) :=
      fun a b h => h.symm
    intro y hy hne
    exact (List.Pairwise.forall hsym hdist hy hxL hne)
  have himp : ∀ y ∈ L, (fun y => !(decide (y = x))) y = true →
      ((fun y => !(decide (descMean x y)) || !(decide (ascMean x y))) y) = true := by
    intro y hy hne
    simp only [Bool.not_eq_true', decide_eq_false_iff_not] at hne
    have hne2 : y.2 ≠ x.2 := hdist2 y hy hne
    rcases lt_or_gt_of_ne hne2 with hlt | hgt
    · have ham : ¬ ascMean x y := fun hc => absurd (lt_of_le_of_lt hc hlt) (lt_irrefl _)
      simp [ham]
    · have hdm : ¬ descMean x y := fun hc => absurd (lt_of_le_of_lt hc hgt) (lt_irrefl _)
      simp [hdm]
  have hmono : L.countP (fun y => !(decide (y = x))) ≤
      L.countP (fun y => !(decide (descMean x y)) || !(decide (ascMean x y))) :=
    List.countP_mono_left himp
  have hor : L.countP (fun y => !(decide (descMean x y)) || !(decide (ascMean x y))) ≤
      L.countP (fun y => !(decide (descMean x y))) +
        L.countP (fun y => !(decide (ascMean x y))) :=
    countP_or_le _ _ L
  have hsplit : L.length = L.countP (fun y => decide (y = x)) +
      L.countP (fun y => !(decide (y = x))) := by
    have := List.length_eq_countP_add_countP (l := L) (fun y => decide (y = x))
    simpa using this
  have hone : L.countP (fun y => decide (y = x)) ≤ 1 :=
    countP_eq_le_one_of_nodup hnd x
  omega

theorem pairwise_of_mem {α : Type} {R : α → α → Prop} {l : List α}
    (h : ∀ a ∈ l, ∀ b ∈ l, R a b) : l.Pairwise R := by
  induction l with
  | nil => exact List.Pairwise.nil
  | cons a t ih =>
    refine List.Pairwise.cons ?_ ?_
    · intro b hb
      exact h a (List.mem_cons_self a t) b (List.mem_cons_of_mem a hb)
    · exact ih (fun x hx y hy =>
        h x (List.mem_cons_of_mem a hx) y (List.mem_cons_of_mem a hy))

/-- C5 as amended: the top-5 ranking is sorted by descending mean, the
bottom-5 ranking by ascending mean, each truncated to five entries (with
ties kept in group-key order by the stable sort, as nlargest and
nsmallest do with keep=first); no ranked value is lower (respectively
higher) than the mean of a non-ranked variety; and the two rankings are
disjoint when at least 10 distinct varieties have data and the
per-variety means are pairwise distinct. -/
theorem c5_top5_rankings (df : List Row) (s : Sel) :
    List.Sorted descMean (top_5_expensive (filtered_df df s)) ∧
    List.Sorted ascMean (top_5_cheapest (filtered_df df s)) ∧
    (top_5_expensive (filtered_df df s)).length =
      min 5 (varietyMeans (filtered_df df s)).length ∧
    (top_5_cheapest (filtered_df df s)).length =
      min 5 (varietyMeans (filtered_df df s)).length ∧
    (∀ x ∈ top_5_expensive (filtered_df df s), ∀ y ∈ varietyMeans (filtered_df df s),
      y ∉ top_5_expensive (filtered_df df s) → y.2 ≤ x.2) ∧
    (∀ x ∈ top_5_cheapest (filtered_df df s), ∀ y ∈ varietyMeans (filtered_df df s),
      y ∉ top_5_cheapest (filtered_df df s) → x.2 ≤ y.2) ∧
    (10 ≤ (varietyMeans (filtered_df df s)).length →
      (varietyMeans (filtered_df df s)).Pairwise (fun a b => a.2 ≠ b.2) →
      ∀ x ∈ top_5_expensive (filtered_df df s), x ∉ top_5_cheapest (filtered_df df s)) := by
  refine ⟨?_, ?_, ?_, ?_, ?_, ?_, ?_⟩
  · exact List.Pairwise.sublist (List.take_sublist 5 _)
      (List.sorted_insertionSort descMean (varietyMeans (filtered_df df s)))
  · exact List.Pairwise.sublist (List.take_sublist 5 _)
      (List.sorted_insertionSort ascMean (varietyMeans (filtered_df df s)))
  · rw [top_5_expensive, List.length_take, List.length_insertionSort]
  · rw [top_5_cheapest, List.length_take, List.length_insertionSort]
  · intro x hx y hyL hynot
    have hyS : y ∈ (varietyMeans (filtered_df df s)).insertionSort descMean :=
      (List.perm_insertionSort descMean _).mem_iff.mpr hyL
    rw [← List.take_append_drop 5
      ((varietyMeans (filtered_df df s)).insertionSort descMean), List.mem_append] at hyS
    rcases hyS with hyT | hyD
    · exact absurd hyT hynot
    · exact (List.sorted_insertionSort descMean _).rel_of_mem_take_of_mem_drop hx hyD
  · intro x hx y hyL hynot
    have hyS : y ∈ (varietyMeans (filtered_df df s)).insertionSort ascMean :=
      (List.perm_insertionSort ascMean _).mem_iff.mpr hyL
    rw [← List.take_append_drop 5
      ((varietyMeans (filtered_df df s)).insertionSort ascMean), List.mem_append] at hyS
    rcases hyS with hyT | hyD
    · exact absurd hyT hynot
    · exact (List.sorted_insertionSort ascMean _).rel_of_mem_take_of_mem_drop hx hyD
  · intro hlen hdist x hxtop hxbot
    exact top5_not_disjoint_aux (varietyMeans_nodup _) hdist hlen hxtop hxbot

theorem meanQ_const {c : ℚ} : ∀ l : List ℚ, l ≠ [] → (∀ q ∈ l, q = c) → meanQ l = c := by
  intro l hne hall
  have hsum : l.sum = l.length * c := by
    induction l with
    | nil => simp
    | cons a t ih =>
      have ha : a = c := hall a (List.mem_cons_self a t)
      by_cases ht : t = []
      · subst ht; simp [ha]
      · rw [List.sum_cons, ih ht (fun q hq => hall q (List.mem_cons_of_mem a hq)), ha,
          List.length_cons]
        push_cast
        ring
  rw [meanQ, hsum]
  have hlen : (l.length : ℚ) ≠ 0 := by
    simp only [ne_eq, Nat.cast_eq_zero, List.length_eq_zero]
    exact hne
  field_simp

theorem groupPrices_ne_nil_of_key (v : List Row) (n : String)
    (hn : n ∈ varietyKeys v) : groupPrices v n ≠ [] := by
  rw [varietyKeys, (List.perm_insertionSort strLeRel _).mem_iff, mem_uniqueFirst,
    List.mem_map] at hn
  obtain ⟨r, hr, rfl⟩ := hn
  have : r ∈ v.filter (fun q => decide (q.variety_name = r.variety_name)) := by
    rw [List.mem_filter]
    exact ⟨hr, by simp⟩
  rw [groupPrices]
  intro hcontra
  rw [List.map_eq_nil_iff] at hcontra
  rw [hcontra] at this
  cases this

/-- Row of the tie dataset: every variety has one row priced 1. -/
def tieRow (n : String) : Row :=
  { memberStateCode := "FR", product := "Apple", variety_name := n
    price := 1, beginDate := ⟨5, 1, 2024⟩, month := 1 }

/-- Ten distinct variety names, already in group-key order. -/
def tieNames : List String :=
  ["a01", "a02", "a03", "a04", "a05", "a06", "a07", "a08", "a09", "a10"]

/-- Dataset with ten varieties whose mean prices are all equal. -/
def tieDf : List Row := tieNames.map tieRow

/-- Selection listing every observed value of the tie dataset. -/
def tieSel : Sel :=
  { countries := ["FR"], products := ["Apple"], varieties := tieNames, months := [1] }

theorem tieDf_prices : ∀ q ∈ groupPrices (filtered_df tieDf tieSel) n, q = 1 := by
  intro q hq
  rw [groupPrices, List.mem_map] at hq
  obtain ⟨r, hr, rfl⟩ := hq
  rw [List.mem_filter] at hr
  have hrdf : r ∈ tieDf := List.filter_sublist tieDf |>.mem hr.1
  rw [tieDf, List.mem_map] at hrdf
  obtain ⟨m, _, rfl⟩ := hrdf
  rfl

theorem tie_varietyMeans_const : ∀ x ∈ varietyMeans (filtered_df tieDf tieSel), x.2 = 1 := by
  intro x hx
  rw [varietyMeans, List.mem_map] at hx
  obtain ⟨n, hn, rfl⟩ := hx
  exact meanQ_const _ (groupPrices_ne_nil_of_key _ n hn) tieDf_prices

/-- C5 counterexample: with ten distinct varieties whose mean prices are
all equal, nlargest and nsmallest both break the tie towards the first
group keys, so the two rankings coincide (and in particular are not
disjoint), refuting the unconditional disjointness part of the claim. -/
theorem c5_counterexample :
    10 ≤ (varietyMeans (filtered_df tieDf tieSel)).length ∧
    top_5_expensive (filtered_df tieDf tieSel) =
      top_5_cheapest (filtered_df tieDf tieSel) ∧
    (top_5_expensive (filtered_df tieDf tieSel)).length = 5 := by
  have hconst := tie_varietyMeans_const
  have hdesc : (varietyMeans (filtered_df tieDf tieSel)).insertionSort descMean =
      varietyMeans (filtered_df tieDf tieSel) := by
    apply List.Sorted.insertionSort_eq
    apply pairwise_of_mem
    intro a ha b hb
    rw [descMean, hconst a ha, hconst b hb]
  have hasc : (varietyMeans (filtered_df tieDf tieSel)).insertionSort ascMean =
      varietyMeans (filtered_df tieDf tieSel) := by
    apply List.Sorted.insertionSort_eq
    apply pairwise_of_mem
    intro a ha b hb
    rw [ascMean, hconst a ha, hconst b hb]
  have hkeys : varietyKeys (filtered_df tieDf tieSel) = tieNames := by decide
  have hlen : (varietyMeans (filtered_df tieDf tieSel)).length = 10 := by
    rw [varietyMeans, List.length_map, hkeys]
    rfl
  refine ⟨by rw [hlen], ?_, ?_⟩
  · rw [top_5_expensive, top_5_cheapest, hdesc, hasc]
  · rw [top_5_expensive, hdesc, List.length_take, hlen]
    omega

/-- Row of the distinct-means dataset: variety n with the given price. -/
def distinctRow (n : String) (q : ℚ) : Row :=
  { memberStateCode := "FR", product := "Apple", variety_name := n
    price := q, beginDate := ⟨5, 1, 2024⟩, month := 1 }

/-- Dataset with ten varieties whose mean prices are pairwise distinct. -/
def distinctDf : List Row :=
  [distinctRow "a01" 1, distinctRow "a02" 2, distinctRow "a03" 3,
   distinctRow "a04" 4, distinctRow "a05" 5, distinctRow "a06" 6,
   distinctRow "a07" 7, distinctRow "a08" 8, distinctRow "a09" 9,
   distinctRow "a10" 10]

/-- Selection listing every observed value of the distinct-means dataset. -/
def distinctSel : Sel :=
  { countries := ["FR"], products := ["Apple"], varieties := tieNames, months := [1] }

theorem meanQ_singleton (q : ℚ) : meanQ [q] = q := by
  simp [meanQ]

theorem distinct_varietyMeans :
    varietyMeans (filtered_df distinctDf distinctSel) =
      [("a01", (1 : ℚ)), ("a02", 2), ("a03", 3), ("a04", 4), ("a05", 5),
       ("a06", 6), ("a07", 7), ("a08", 8), ("a09", 9), ("a10", 10)] := by
  have hkeys : varietyKeys (filtered_df distinctDf distinctSel) = tieNames := by decide
  rw [varietyMeans, hkeys]
  have hg01 : groupPrices (filtered_df distinctDf distinctSel) "a01" = [1] := rfl
  have hg02 : groupPrices (filtered_df distinctDf distinctSel) "a02" = [2] := rfl
  have hg03 : groupPrices (filtered_df distinctDf distinctSel) "a03" = [3] := rfl
  have hg04 : groupPrices (filtered_df distinctDf distinctSel) "a04" = [4] := rfl
  have hg05 : groupPrices (filtered_df distinctDf distinctSel) "a05" = [5] := rfl
  have hg06 : groupPrices (filtered_df distinctDf distinctSel) "a06" = [6] := rfl
  have hg07 : groupPrices (filtered_df distinctDf distinctSel) "a07" = [7] := rfl
  have hg08 : groupPrices (filtered_df distinctDf distinctSel) "a08" = [8] := rfl
  have hg09 : groupPrices (filtered_df distinctDf distinctSel) "a09" = [9] := rfl
  have hg10 : groupPrices (filtered_df distinctDf distinctSel) "a10" = [10] := rfl
  simp only [tieNames, List.map_cons, List.map_nil, hg01, hg02, hg03, hg04, hg05,
    hg06, hg07, hg08, hg09, hg10, meanQ_singleton]

/-- Witness for the amended C5 at a dataset with ten varieties of
pairwise-distinct mean prices: the disjointness hypotheses hold and the
two rankings share no entry. -/
theorem c5_witness :
    10 ≤ (varietyMeans (filtered_df distinctDf distinctSel)).length ∧
    (varietyMeans (filtered_df distinctDf distinctSel)).Pairwise (fun a b => a.2 ≠ b.2) ∧
    ∀ x ∈ top_5_expensive (filtered_df distinctDf distinctSel),
      x ∉ top_5_cheapest (filtered_df distinctDf distinctSel) := by
  have h1 : 10 ≤ (varietyMeans (filtered_df distinctDf distinctSel)).length := by
    rw [distinct_varietyMeans]
    rfl
  have h2 : (varietyMeans (filtered_df distinctDf distinctSel)).Pairwise
      (fun a b => a.2 ≠ b.2) := by
    rw [distinct_varietyMeans]
    norm_num [List.pairwise_cons]
  exact ⟨h1, h2, (c5_top5_rankings distinctDf distinctSel).2.2.2.2.2.2 h1 h2⟩

end Fruit
